import Mathlib

/- Verification development for the puppet Ansible module (src/puppet.py):
   the output-sanitization pipeline of `Puppet.puppet_status`, the package
   inventory capture of `Rpmdatabase.rpm`, and the diff-report rendering of
   `Rpmdatabase.formatdiff` composed with `difflib.unified_diff` as invoked
   in `main`.  Strings are modelled as `List Char`; each Python `re.sub`
   call is modelled as a character scanner with the leftmost,
   non-overlapping substitution semantics of `re.sub`. -/

namespace Puppet

set_option maxRecDepth 8000

/-- The literal `Info:` of the pattern `(?i)Info:.*\n` (puppet.py line 87). -/
def infoPat : List Char := "Info:".toList

/-- The text of the pattern `(?i)Notice: Ignoring --listen on onetime run\n`
(puppet.py line 88), without its final newline. -/
def noticeText : List Char := "Notice: Ignoring --listen on onetime run".toList

/-- The full notice pattern including its final newline. -/
def noticePat : List Char := noticeText ++ ['\n']

/-- The literal of the pattern `.*default_db.*` (puppet.py line 90). -/
def defaultDbPat : List Char := "default_db".toList

/-- The literal of the pattern `.*password.*` (puppet.py line 91); note the
source pattern has no `(?i)` flag, so it is case sensitive. -/
def passwordPat : List Char := "password".toList

/-- The replacement string used by both redaction rules (lines 90 and 91). -/
def passwordMarker : List Char := "************Password filtered out************".toList

/-- Case-insensitive prefix test: `ciStartsWith p s` holds when the pattern
`p` matches at the start of `s`, comparing characters through
`Char.toLower` as Python's `re.IGNORECASE` does for ASCII patterns. -/
def ciStartsWith : List Char → List Char → Bool
  | [], _ => true
  | _ :: _, [] => false
  | p :: ps, c :: cs => (p.toLower == c.toLower) && ciStartsWith ps cs

/-- Case-sensitive substring test, used for the `.*default_db.*` and
`.*password.*` patterns. -/
def hasSub (pat : List Char) : List Char → Bool
  | [] => pat.isEmpty
  | c :: rest => List.isPrefixOf pat (c :: rest) || hasSub pat rest

/-- Drop everything up to and including the first newline.  An occurrence of
`Info:` matched by `Info:.*\n` consumes exactly this span, because `.` does
not match a newline and `.*` is followed by a mandatory `\n`. -/
def dropAfterNL : List Char → List Char
  | [] => []
  | c :: rest => if c = '\n' then rest else dropAfterNL rest

/-- Fuelled scanner for `re.sub('(?i)Info:.*\n', '', stdout)` (line 87): at
each position, if the case-insensitive literal `Info:` matches and a newline
follows on the same line, the match (through the newline) is deleted and
scanning resumes after it; otherwise the character is copied.  The fuel is
only a termination device; `subInfo` supplies enough of it. -/
def subInfoF : Nat → List Char → List Char
  | 0, _ => []
  | _ + 1, [] => []
  | fuel + 1, c :: rest =>
    if ciStartsWith infoPat (c :: rest) && (c :: rest).contains '\n' then
      subInfoF fuel (dropAfterNL (c :: rest))
    else
      c :: subInfoF fuel rest

/-- The first sanitization pass (puppet.py line 87). -/
def subInfo (s : List Char) : List Char := subInfoF s.length s

/-- Fuelled scanner for
`re.sub('(?i)Notice: Ignoring --listen on onetime run\n', '', stdout)`
(line 88): the pattern is a case-insensitive literal ending in a newline;
each match deletes exactly `noticePat.length` characters. -/
def subNoticeF : Nat → List Char → List Char
  | 0, _ => []
  | _ + 1, [] => []
  | fuel + 1, c :: rest =>
    if ciStartsWith noticePat (c :: rest) then
      subNoticeF fuel (List.drop (noticePat.length - 1) rest)
    else
      c :: subNoticeF fuel rest

/-- The second sanitization pass (puppet.py line 88). -/
def subNotice (s : List Char) : List Char := subNoticeF s.length s

/-- Split a string into its newline-separated segments, Python-style:
`linesOf [] = [[]]`, and every `'\n'` opens a new segment. -/
def linesOf : List Char → List (List Char)
  | [] => [[]]
  | c :: rest =>
    if c = '\n' then [] :: linesOf rest
    else
      match linesOf rest with
      | [] => [[c]]
      | l :: ls => (c :: l) :: ls

/-- Rejoin segments with newlines; inverse of `linesOf`. -/
def joinLines : List (List Char) → List Char
  | [] => []
  | [l] => l
  | l :: l' :: ls => l ++ '\n' :: joinLines (l' :: ls)

/-- Join a list of lines, terminating every line with a newline. -/
def joinNL : List (List Char) → List Char
  | [] => []
  | l :: ls => l ++ '\n' :: joinNL ls

/-- Scanner for `re.sub('.*PAT.*', marker, stdout)` (lines 90 and 91).
Because `.` does not match a newline, the regex `.*PAT.*` matches exactly
the full newline-delimited segments that contain `PAT`, leftmost first, so
the substitution replaces, segment by segment, every segment containing
`PAT` by the marker. -/
def subAllLine (pat s : List Char) : List Char :=
  joinLines ((linesOf s).map (fun l => if hasSub pat l then passwordMarker else l))

/-- The four-pass sanitization applied to the agent output by
`Puppet.puppet_status` (puppet.py lines 86-91), in source order. -/
def puppetSanitize (s : List Char) : List Char :=
  subAllLine passwordPat (subAllLine defaultDbPat (subNotice (subInfo s)))

/-- Modelled from the spec: the edit operations of a minimal line
diff (Python's `difflib` is not part of this repository's sources; the spec
describes a generic longest-common-subsequence-based diff that finds a
minimal edit script of insertions and deletions). -/
inductive DiffOp where
  | keep : List Char → DiffOp
  | del : List Char → DiffOp
  | ins : List Char → DiffOp

/-- Modelled from the spec: fuelled longest common subsequence of two line
sequences, used to choose a minimal edit script. -/
def lcsF : Nat → List (List Char) → List (List Char) → List (List Char)
  | 0, _, _ => []
  | _ + 1, [], _ => []
  | _ + 1, _ :: _, [] => []
  | fuel + 1, a :: as, b :: bs =>
    if a = b then a :: lcsF fuel as bs
    else
      let viaDel := lcsF fuel as (b :: bs)
      let viaIns := lcsF fuel (a :: as) bs
      if viaIns.length ≤ viaDel.length then viaDel else viaIns

/-- Longest common subsequence with sufficient fuel. -/
def lcs (a b : List (List Char)) : List (List Char) :=
  lcsF (a.length + b.length + 1) a b

/-- Modelled from the spec: fuelled computation of a minimal edit script
between two ordered line sequences, emitting removals before additions
inside a replaced region, per standard unified-diff hunk ordering. -/
def diffOpsF : Nat → List (List Char) → List (List Char) → List DiffOp
  | 0, _, _ => []
  | _ + 1, [], bs => bs.map DiffOp.ins
  | _ + 1, a :: as, [] => (a :: as).map DiffOp.del
  | fuel + 1, a :: as, b :: bs =>
    if a = b then DiffOp.keep a :: diffOpsF fuel as bs
    else if (lcs (a :: as) bs).length ≤ (lcs as (b :: bs)).length then
      DiffOp.del a :: diffOpsF fuel as (b :: bs)
    else
      DiffOp.ins b :: diffOpsF fuel (a :: as) bs

/-- Minimal edit script with sufficient fuel. -/
def diffOps (a b : List (List Char)) : List DiffOp :=
  diffOpsF (a.length + b.length + 1) a b

/-- Modelled from the spec: a hunk of a unified diff with zero context
lines, holding its start positions in both sequences together with its
removed and added lines. -/
structure Hunk where
  ai : Nat
  bi : Nat
  dels : List (List Char)
  inss : List (List Char)

/-- Extend a pending hunk (or open one) with a removed line. -/
def addDel (acc : Option Hunk) (s : List Char) (i j : Nat) : Hunk :=
  match acc with
  | none => ⟨i, j, [s], []⟩
  | some h => ⟨h.ai, h.bi, h.dels ++ [s], h.inss⟩

/-- Extend a pending hunk (or open one) with an added line. -/
def addIns (acc : Option Hunk) (s : List Char) (i j : Nat) : Hunk :=
  match acc with
  | none => ⟨i, j, [], [s]⟩
  | some h => ⟨h.ai, h.bi, h.dels, h.inss ++ [s]⟩

/-- Modelled from the spec: group the edit script into hunks of contiguous
changed lines (zero context lines, so every kept line closes the pending
hunk), tracking positions in both sequences. -/
def hunksAux : List DiffOp → Nat → Nat → Option Hunk → List Hunk
  | [], _, _, none => []
  | [], _, _, some h => [h]
  | DiffOp.keep _ :: rest, i, j, none => hunksAux rest (i + 1) (j + 1) none
  | DiffOp.keep _ :: rest, i, j, some h => h :: hunksAux rest (i + 1) (j + 1) none
  | DiffOp.del s :: rest, i, j, acc => hunksAux rest (i + 1) j (some (addDel acc s i j))
  | DiffOp.ins s :: rest, i, j, acc => hunksAux rest i (j + 1) (some (addIns acc s i j))

/-- Modelled from the spec: the range field of a unified-diff hunk header,
with the usual unified-diff conventions (a 1-based start, the length
omitted when it is 1, and a start not advanced past an empty range). -/
def formatRange (start stop : Nat) : List Char :=
  if stop - start = 1 then (Nat.repr (start + 1)).toList
  else if stop - start = 0 then (Nat.repr start).toList ++ ',' :: (Nat.repr 0).toList
  else (Nat.repr (start + 1)).toList ++ ',' :: (Nat.repr (stop - start)).toList

/-- Modelled from the spec: render one hunk as its `@@ -A +B @@` range
header followed by its `-` lines and then its `+` lines. -/
def renderHunk (h : Hunk) : List (List Char) :=
  ("@@ -".toList ++ formatRange h.ai (h.ai + h.dels.length) ++
      " +".toList ++ formatRange h.bi (h.bi + h.inss.length) ++ " @@".toList)
    :: (h.dels.map (fun s => '-' :: s) ++ h.inss.map (fun s => '+' :: s))

/-- Modelled from the spec: `difflib.unified_diff(a, b, n=0, lineterm="")`
as invoked by `main` (puppet.py line 153): no output at all when there is
no change; otherwise the two file header lines (empty file names, empty
line terminator) followed by the rendered hunks. -/
def unifiedDiff (a b : List (List Char)) : List (List Char) :=
  match hunksAux (diffOps a b) 0 0 none with
  | [] => []
  | h :: hs => "--- ".toList :: "+++ ".toList :: ((h :: hs).map renderHunk).flatten

/-- The fixed rule line of `Rpmdatabase.formatdiff` (puppet.py line 116).
The source spells it as a literal line of 80 equals signs followed by a
newline; it is spelled here as a replicate of the same length. -/
def seperator : List Char := List.replicate 80 '=' ++ ['\n']

/-- The report header line of `Rpmdatabase.formatdiff` (line 117). -/
def diffheader : List Char := "This is the RPM delta\n".toList

/-- The character class `[a-zA-Z]`, by ASCII code ranges. -/
def isAsciiLetter (c : Char) : Bool :=
  (97 ≤ c.toNat && c.toNat ≤ 122) || (65 ≤ c.toNat && c.toNat ≤ 90)

/-- The filter `re.search("^[-|+][a-zA-Z].*", line)` of `formatdiff`
(line 120): the first character must be `-`, `|` or `+` (the class
`[-|+]` contains the pipe) and the second an ASCII letter; `.*` always
matches. -/
def keepLine : List Char → Bool
  | c1 :: c2 :: _ => (c1 == '-' || c1 == '|' || c1 == '+') && isAsciiLetter c2
  | _ => false

/-- `Rpmdatabase.formatdiff` (puppet.py lines 114-124): accumulate the
accepted lines, each followed by a newline, and wrap them in the separator
and header. -/
def formatdiff (rpmdiff : List (List Char)) : List Char :=
  seperator ++ diffheader ++
    (rpmdiff.foldl (fun text line => if keepLine line then text ++ line ++ ['\n'] else text) []) ++
    seperator

/-- The composition performed by `main` (puppet.py lines 153-154):
`rpmdata.formatdiff(difflib.unified_diff(prelist, postlist, n=0, lineterm=""))`. -/
def formatRpm (before after : List (List Char)) : List Char :=
  formatdiff (unifiedDiff before after)

/-- The body of the report: the accepted diff lines, each newline
terminated, concatenated. -/
def diffBody (before after : List (List Char)) : List Char :=
  (((unifiedDiff before after).filter keepLine).map (fun l => l ++ ['\n'])).flatten

/-- One entry of the rpm database as consumed by `Rpmdatabase.rpm`
(puppet.py lines 106-112); the database itself is external to the module,
so its enumeration is taken as the input. -/
structure RpmHeader where
  name : List Char
  version : List Char
  release : List Char

/-- The identifier `"%s-%s-%s" % (h['name'], h['version'], h['release'])`
built for each entry (line 111). -/
def headerIdent (h : RpmHeader) : List Char :=
  h.name ++ '-' :: (h.version ++ '-' :: h.release)

/-- `Rpmdatabase.rpm` (lines 106-112): start from an empty list and append
one identifier per enumerated entry, in enumeration order. -/
def rpmCapture (mi : List RpmHeader) : List (List Char) :=
  mi.foldl (fun rpmlist h => rpmlist ++ [headerIdent h]) []

/-- Only the newline character lowercases to a newline. -/
theorem toLower_eq_nl {c : Char} (h : c.toLower = '\n') : c = '\n' := by
  unfold Char.toLower at h
  by_cases hc : c.toNat ≥ 65 ∧ c.toNat ≤ 90
  · exfalso
    rw [if_pos hc] at h
    obtain ⟨h1, h2⟩ := hc
    have h1' : 65 ≤ c.toNat := h1
    have h2' : c.toNat ≤ 90 := h2
    set m := c.toNat with hm
    interval_cases m <;> exact absurd h (by decide)
  · rwa [if_neg hc] at h

theorem nl_toLower : Char.toLower '\n' = '\n' := by decide

/-- A nonempty pattern never matches at the end of the text. -/
theorem ciStartsWith_nil {p : List Char} (h : p ≠ []) : ciStartsWith p [] = false := by
  cases p with
  | nil => exact absurd rfl h
  | cons a l => rfl

/-- A pattern longer than the text never matches. -/
theorem ciStartsWith_short {p x : List Char} (h : x.length < p.length) :
    ciStartsWith p x = false := by
  induction p generalizing x with
  | nil => simp at h
  | cons p0 ps ih =>
    cases x with
    | nil => rfl
    | cons c cs =>
      simp only [ciStartsWith]
      rcases hb : (p0.toLower == c.toLower) with _ | _
      · simp
      · simp only [Bool.true_and]
        exact ih (by simpa using Nat.lt_of_succ_lt_succ h)

/-- Whether a pattern matches is decided within the first `p.length`
characters of the text. -/
theorem ciStartsWith_append_of_le {p x : List Char} (y : List Char)
    (h : p.length ≤ x.length) : ciStartsWith p (x ++ y) = ciStartsWith p x := by
  induction p generalizing x with
  | nil => rfl
  | cons p0 ps ih =>
    cases x with
    | nil => simp at h
    | cons c cs =>
      simp only [List.cons_append, ciStartsWith, List.append_eq]
      rw [ih (by simpa using Nat.le_of_succ_le_succ h)]

/-- A match survives appending more text. -/
theorem ciStartsWith_true_append {p x : List Char} (y : List Char)
    (h : ciStartsWith p x = true) : ciStartsWith p (x ++ y) = true := by
  induction p generalizing x with
  | nil => rfl
  | cons p0 ps ih =>
    cases x with
    | nil => simp [ciStartsWith] at h
    | cons c cs =>
      simp only [ciStartsWith, Bool.and_eq_true] at h
      simp only [List.cons_append, ciStartsWith, Bool.and_eq_true]
      exact ⟨h.1, ih h.2⟩

/-- A match is at least as long as the pattern. -/
theorem ciStartsWith_length {p x : List Char} (h : ciStartsWith p x = true) :
    p.length ≤ x.length := by
  by_contra hlt
  rw [ciStartsWith_short (Nat.lt_of_not_le hlt)] at h
  exact Bool.false_ne_true h

/-- If the text reaches a newline while the pattern still expects a
non-newline character there, the pattern does not match. -/
theorem ciStartsWith_nl_block {p x : List Char} (r : List Char) (hx : '\n' ∉ x)
    (hlen : x.length < p.length) (hp : (p.getD x.length ' ').toLower ≠ '\n') :
    ciStartsWith p (x ++ '\n' :: r) = false := by
  induction x generalizing p with
  | nil =>
    cases p with
    | nil => simp at hlen
    | cons p0 ps =>
      have hp0 : p0.toLower ≠ '\n' := by simpa using hp
      show ciStartsWith (p0 :: ps) ('\n' :: r) = false
      simp only [ciStartsWith, nl_toLower]
      rcases hb : (p0.toLower == '\n') with _ | _
      · simp
      · exact absurd (by simpa using hb) hp0
  | cons c cs ih =>
    cases p with
    | nil => simp at hlen
    | cons p0 ps =>
      show ciStartsWith (p0 :: ps) (c :: (cs ++ '\n' :: r)) = false
      simp only [ciStartsWith]
      rcases hb : (p0.toLower == c.toLower) with _ | _
      · simp
      · simp only [Bool.true_and]
        refine ih (fun hmem => hx (List.mem_cons_of_mem _ hmem))
          (by simpa using Nat.lt_of_succ_lt_succ hlen) ?_
        simpa using hp

/-- Every character of the `Info:` pattern survives the newline test. -/
theorem infoIdx : ∀ i, i < infoPat.length → (infoPat.getD i ' ').toLower ≠ '\n' := by decide

/-- Every character of the notice pattern except its final newline survives
the newline test. -/
theorem noticeIdx : ∀ i, i < noticeText.length →
    (noticePat.getD i ' ').toLower ≠ '\n' := by decide

theorem infoPat_ne_nil : infoPat ≠ [] := by decide

theorem noticePat_length : noticePat.length = 41 := by decide

theorem dropAfterNL_length_le (l : List Char) : (dropAfterNL l).length ≤ l.length := by
  induction l with
  | nil => simp [dropAfterNL]
  | cons c rest ih =>
    simp only [dropAfterNL]
    split
    · simp
    · exact Nat.le_succ_of_le ih

theorem dropAfterNL_lt (c : Char) (rest : List Char) :
    (dropAfterNL (c :: rest)).length < (c :: rest).length := by
  simp only [dropAfterNL]
  split
  · simp
  · exact Nat.lt_succ_of_le (dropAfterNL_length_le rest)

theorem subInfoF_nil (f : Nat) : subInfoF f [] = [] := by cases f <;> rfl

/-- The scanner result does not depend on the fuel once the fuel covers the
text length. -/
theorem subInfoF_fuel : ∀ f g s, s.length ≤ f → s.length ≤ g → subInfoF f s = subInfoF g s := by
  intro f
  induction f with
  | zero =>
    intro g s hf _
    have : s = [] := List.eq_nil_of_length_eq_zero (Nat.le_zero.mp hf)
    subst this
    rw [subInfoF_nil, subInfoF_nil]
  | succ f ih =>
    intro g s hf hg
    cases s with
    | nil => rw [subInfoF_nil, subInfoF_nil]
    | cons c rest =>
      cases g with
      | zero => simp at hg
      | succ g =>
        simp only [subInfoF]
        split
        · exact ih g (dropAfterNL (c :: rest))
            (Nat.le_of_lt_succ (Nat.lt_of_lt_of_le (dropAfterNL_lt c rest) hf))
            (Nat.le_of_lt_succ (Nat.lt_of_lt_of_le (dropAfterNL_lt c rest) hg))
        · rw [ih g rest (Nat.le_of_succ_le_succ hf) (Nat.le_of_succ_le_succ hg)]

/-- Single-step unfolding of the first sanitization pass. -/
theorem subInfo_cons (c : Char) (rest : List Char) :
    subInfo (c :: rest) =
      if ciStartsWith infoPat (c :: rest) && (c :: rest).contains '\n' then
        subInfo (dropAfterNL (c :: rest))
      else
        c :: subInfo rest := by
  show subInfoF (rest.length + 1) (c :: rest) = _
  simp only [subInfoF]
  split
  · exact subInfoF_fuel _ _ _
      (Nat.le_of_lt_succ (by simpa using dropAfterNL_lt c rest)) (Nat.le_refl _)
  · rfl

theorem subNoticeF_nil (f : Nat) : subNoticeF f [] = [] := by cases f <;> rfl

theorem subNoticeF_fuel : ∀ f g s, s.length ≤ f → s.length ≤ g →
    subNoticeF f s = subNoticeF g s := by
  intro f
  induction f with
  | zero =>
    intro g s hf _
    have : s = [] := List.eq_nil_of_length_eq_zero (Nat.le_zero.mp hf)
    subst this
    rw [subNoticeF_nil, subNoticeF_nil]
  | succ f ih =>
    intro g s hf hg
    cases s with
    | nil => rw [subNoticeF_nil, subNoticeF_nil]
    | cons c rest =>
      cases g with
      | zero => simp at hg
      | succ g =>
        have hd : (List.drop (noticePat.length - 1) rest).length ≤ rest.length := by
          rw [List.length_drop]
          omega
        simp only [subNoticeF]
        split
        · exact ih g _
            (Nat.le_trans hd (Nat.le_of_succ_le_succ hf))
            (Nat.le_trans hd (Nat.le_of_succ_le_succ hg))
        · rw [ih g rest (Nat.le_of_succ_le_succ hf) (Nat.le_of_succ_le_succ hg)]

/-- Single-step unfolding of the second sanitization pass. -/
theorem subNotice_cons (c : Char) (rest : List Char) :
    subNotice (c :: rest) =
      if ciStartsWith noticePat (c :: rest) then
        subNotice (List.drop (noticePat.length - 1) rest)
      else
        c :: subNotice rest := by
  show subNoticeF (rest.length + 1) (c :: rest) = _
  have hd : (List.drop (noticePat.length - 1) rest).length ≤ rest.length := by
    rw [List.length_drop]
    omega
  simp only [subNoticeF]
  split
  · exact subNoticeF_fuel _ _ _ hd (Nat.le_refl _)
  · rfl

/-- No occurrence of the `Info:` literal strictly inside the line. -/
def noMidInfo (l : List Char) : Prop :=
  ∀ k, k < l.length → 0 < k → ciStartsWith infoPat (l.drop k) = false

/-- No occurrence of the notice pattern starting strictly inside the line
(the pattern's final newline would have to be the line's own terminator). -/
def noMidNotice (l : List Char) : Prop :=
  ∀ k, k < l.length → 0 < k → ciStartsWith noticePat (l.drop k ++ ['\n']) = false

/-- A line with no internal newline and no mid-line occurrence of either
removal pattern: on such lines the two removal rules act on whole lines. -/
def LineSafe (l : List Char) : Prop :=
  '\n' ∉ l ∧ noMidInfo l ∧ noMidNotice l

instance (l : List Char) : Decidable (noMidInfo l) := by
  unfold noMidInfo
  infer_instance

instance (l : List Char) : Decidable (noMidNotice l) := by
  unfold noMidNotice
  infer_instance

instance (l : List Char) : Decidable (LineSafe l) := by
  unfold LineSafe
  infer_instance

theorem dropAfterNL_append {l : List Char} (r : List Char) (hnl : '\n' ∉ l) :
    dropAfterNL (l ++ '\n' :: r) = r := by
  induction l with
  | nil => simp [dropAfterNL]
  | cons c cs ih =>
    have hc : c ≠ '\n' := fun hc => hnl (hc ▸ List.mem_cons_self c cs)
    simp only [List.cons_append, dropAfterNL, if_neg hc]
    exact ih (fun hm => hnl (List.mem_cons_of_mem _ hm))

/-- On a line with no match at any position, the first pass copies the line
and its newline verbatim. -/
theorem subInfo_copy {l : List Char} (r : List Char) (hnl : '\n' ∉ l)
    (h : ∀ k, k < l.length → ciStartsWith infoPat (l.drop k) = false) :
    subInfo (l ++ '\n' :: r) = l ++ '\n' :: subInfo r := by
  induction l with
  | nil =>
    have hno : ciStartsWith infoPat ('\n' :: r) = false := by
      have := ciStartsWith_nl_block (p := infoPat) (x := []) r (by simp) (by decide)
        (infoIdx 0 (by decide))
      simpa using this
    rw [List.nil_append, subInfo_cons, hno]
    simp
  | cons c cs ih =>
    have hnl' : '\n' ∉ cs := fun hm => hnl (List.mem_cons_of_mem _ hm)
    have h0 : ciStartsWith infoPat (c :: cs) = false := by simpa using h 0 (by simp)
    have hno : ciStartsWith infoPat ((c :: cs) ++ '\n' :: r) = false := by
      by_cases hlen : infoPat.length ≤ (c :: cs).length
      · rw [ciStartsWith_append_of_le ('\n' :: r) hlen]
        exact h0
      · exact ciStartsWith_nl_block r hnl (Nat.lt_of_not_le hlen)
          (infoIdx _ (Nat.lt_of_not_le hlen))
    rw [List.cons_append, subInfo_cons]
    rw [show ((c :: (cs ++ '\n' :: r)) = ((c :: cs) ++ '\n' :: r)) from rfl, hno]
    simp only [Bool.false_and, if_neg Bool.false_ne_true]
    have htail : ∀ k, k < cs.length → ciStartsWith infoPat (cs.drop k) = false := by
      intro k hk
      have := h (k + 1) (by simpa using Nat.succ_lt_succ hk)
      simpa using this
    rw [ih hnl' htail]
    rfl

/-- A line starting with the `Info:` literal is removed together with its
newline by the first pass. -/
theorem subInfo_remove {l : List Char} (r : List Char) (hnl : '\n' ∉ l)
    (h : ciStartsWith infoPat l = true) :
    subInfo (l ++ '\n' :: r) = subInfo r := by
  cases l with
  | nil => rw [ciStartsWith_nil infoPat_ne_nil] at h; exact absurd h (by simp)
  | cons c cs =>
    have hmatch : ciStartsWith infoPat ((c :: cs) ++ '\n' :: r) = true :=
      ciStartsWith_true_append _ h
    have hcontains : ((c :: cs) ++ '\n' :: r).contains '\n' = true := by
      simp
    rw [List.cons_append, subInfo_cons]
    rw [show (c :: (cs ++ '\n' :: r)) = ((c :: cs) ++ '\n' :: r) from rfl, hmatch, hcontains]
    simp only [Bool.and_self, if_pos]
    rw [dropAfterNL_append r hnl]

/-- On a line with no notice match at any position (its own terminator
included), the second pass copies the line and its newline verbatim. -/
theorem subNotice_copy {l : List Char} (r : List Char) (hnl : '\n' ∉ l)
    (h : ∀ k, k < l.length + 1 → ciStartsWith noticePat (l.drop k ++ ['\n']) = false) :
    subNotice (l ++ '\n' :: r) = l ++ '\n' :: subNotice r := by
  have hText : noticeText.length = 40 := by decide
  induction l with
  | nil =>
    have hno : ciStartsWith noticePat ('\n' :: r) = false := by
      have := ciStartsWith_nl_block (p := noticePat) (x := []) r (by simp)
        (by decide) (noticeIdx 0 (by decide))
      simpa using this
    rw [List.nil_append, subNotice_cons, hno]
    simp
  | cons c cs ih =>
    have hnl' : '\n' ∉ cs := fun hm => hnl (List.mem_cons_of_mem _ hm)
    have h0 : ciStartsWith noticePat ((c :: cs) ++ ['\n']) = false := by
      simpa using h 0 (by simp)
    have hno : ciStartsWith noticePat ((c :: cs) ++ '\n' :: r) = false := by
      by_cases hlen : noticePat.length ≤ (c :: cs).length + 1
      · have hlen' : noticePat.length ≤ ((c :: cs) ++ ['\n']).length := by
          simpa using hlen
        calc ciStartsWith noticePat ((c :: cs) ++ '\n' :: r)
            = ciStartsWith noticePat (((c :: cs) ++ ['\n']) ++ r) := by
              simp
          _ = ciStartsWith noticePat ((c :: cs) ++ ['\n']) :=
              ciStartsWith_append_of_le r hlen'
          _ = false := h0
      · have hlt : (c :: cs).length < noticeText.length := by
          rw [noticePat_length] at hlen
          rw [hText]
          omega
        exact ciStartsWith_nl_block r hnl
          (by rw [noticePat_length]; omega) (noticeIdx _ hlt)
    rw [List.cons_append, subNotice_cons]
    rw [show (c :: (cs ++ '\n' :: r)) = ((c :: cs) ++ '\n' :: r) from rfl, hno]
    simp only [if_neg Bool.false_ne_true]
    have htail : ∀ k, k < cs.length + 1 →
        ciStartsWith noticePat (cs.drop k ++ ['\n']) = false := by
      intro k hk
      have := h (k + 1) (by simpa using Nat.succ_lt_succ hk)
      simpa using this
    have := ih hnl' htail
    simp only [List.cons_append] at *
    rw [this]

/-- A successful match fixes every compared character up to case. -/
theorem ciStartsWith_getD {p x : List Char} (h : ciStartsWith p x = true) :
    ∀ i, i < p.length → (p.getD i ' ').toLower = (x.getD i ' ').toLower := by
  induction p generalizing x with
  | nil => intro i hi; simp at hi
  | cons p0 ps ih =>
    cases x with
    | nil =>
      rw [ciStartsWith_nil (by simp)] at h
      exact absurd h (by simp)
    | cons c cs =>
      simp only [ciStartsWith, Bool.and_eq_true, beq_iff_eq] at h
      intro i hi
      cases i with
      | zero => simpa using h.1
      | succ i => simpa using ih h.2 i (by simpa using Nat.lt_of_succ_lt_succ hi)

/-- A line matching the notice pattern (with its terminator) is removed
together with its newline by the second pass. -/
theorem subNotice_remove {l : List Char} (r : List Char) (hnl : '\n' ∉ l)
    (h : ciStartsWith noticePat (l ++ ['\n']) = true) :
    subNotice (l ++ '\n' :: r) = subNotice r := by
  have hlen : l.length = 40 := by
    have hge : noticePat.length ≤ (l ++ ['\n']).length := ciStartsWith_length h
    rw [noticePat_length] at hge
    simp only [List.length_append, List.length_cons, List.length_nil] at hge
    by_contra hne
    have hgt : 40 < l.length := by omega
    have h40 := ciStartsWith_getD h 40 (by rw [noticePat_length]; omega)
    have hpat : (noticePat.getD 40 ' ') = '\n' := by decide
    rw [hpat, nl_toLower] at h40
    have hx : (l ++ ['\n']).getD 40 ' ' = l.getD 40 ' ' := List.getD_append _ _ _ _ hgt
    rw [hx] at h40
    have hmem : l.getD 40 ' ' ∈ l := by
      rw [List.getD_eq_getElem _ _ hgt]
      exact List.getElem_mem hgt
    exact hnl ((toLower_eq_nl h40.symm) ▸ hmem)
  cases l with
  | nil => simp at hlen
  | cons c cs =>
    have hmatch : ciStartsWith noticePat ((c :: cs) ++ '\n' :: r) = true := by
      have heq : (c :: cs) ++ '\n' :: r = ((c :: cs) ++ ['\n']) ++ r := by simp
      rw [heq]
      exact ciStartsWith_true_append r h
    rw [List.cons_append, subNotice_cons]
    rw [show (c :: (cs ++ '\n' :: r)) = ((c :: cs) ++ '\n' :: r) from rfl, hmatch]
    simp only [if_pos]
    have hcs : cs.length = 39 := by simpa using hlen
    rw [noticePat_length]
    rw [show (41 - 1 : Nat) = 39 + 1 from rfl, ← hcs]
    have hdrop : List.drop (cs.length + 1) (cs ++ '\n' :: r) = r := by
      rw [show cs.length + 1 = cs.length + 1 from rfl]
      rw [← List.drop_drop]
      rw [List.drop_left]
      rfl
    rw [hdrop]

/-- With the rest of the input behind the line's newline, an `Info:` match
at the line start is decided by the line alone. -/
theorem ciStartsWith_info_line {l : List Char} (r : List Char) (hnl : '\n' ∉ l) :
    ciStartsWith infoPat (l ++ '\n' :: r) = ciStartsWith infoPat l := by
  by_cases hlen : infoPat.length ≤ l.length
  · exact ciStartsWith_append_of_le _ hlen
  · rw [ciStartsWith_nl_block r hnl (Nat.lt_of_not_le hlen) (infoIdx _ (Nat.lt_of_not_le hlen))]
    rw [ciStartsWith_short (Nat.lt_of_not_le hlen)]

/-- With the rest of the input behind the line's newline, a notice match at
the line start is decided by the line and its own terminator. -/
theorem ciStartsWith_notice_line {l : List Char} (r : List Char) (hnl : '\n' ∉ l) :
    ciStartsWith noticePat (l ++ '\n' :: r) = ciStartsWith noticePat (l ++ ['\n']) := by
  by_cases hlen : noticePat.length ≤ l.length + 1
  · have heq : l ++ '\n' :: r = (l ++ ['\n']) ++ r := by simp
    rw [heq, ciStartsWith_append_of_le r (by simpa using hlen)]
  · have hText : noticeText.length = 40 := by decide
    have hlt : l.length < noticeText.length := by
      rw [noticePat_length] at hlen
      omega
    rw [ciStartsWith_nl_block r hnl (by rw [noticePat_length]; omega) (noticeIdx _ hlt)]
    have hshort : (l ++ ['\n']).length < noticePat.length := by
      simp only [List.length_append, List.length_cons, List.length_nil]
      rw [noticePat_length]
      omega
    rw [ciStartsWith_short hshort]

theorem noticePat_nl : ciStartsWith noticePat ['\n'] = false := by decide

/-- The first pass on newline-joined safe lines drops exactly the lines
starting with the `Info:` literal. -/
theorem subInfo_joinNL (ls : List (List Char))
    (h : ∀ l ∈ ls, '\n' ∉ l ∧ noMidInfo l) :
    subInfo (joinNL ls) = joinNL (ls.filter (fun l => !(ciStartsWith infoPat l))) := by
  induction ls with
  | nil => rfl
  | cons l ls ih =>
    obtain ⟨hnl, hmid⟩ := h l (List.mem_cons_self l ls)
    have hrest := fun x hx => h x (List.mem_cons_of_mem l hx)
    rw [joinNL, List.filter_cons]
    rcases hd : ciStartsWith infoPat l with _ | _
    · have hall : ∀ k, k < l.length → ciStartsWith infoPat (l.drop k) = false := by
        intro k hk
        cases k with
        | zero => simpa using hd
        | succ k => exact hmid (k + 1) hk (Nat.succ_pos k)
      rw [subInfo_copy (joinNL ls) hnl hall, ih hrest]
      simp only [hd, Bool.not_false, if_pos]
      rfl
    · rw [subInfo_remove (joinNL ls) hnl hd, ih hrest]
      simp [hd]

/-- The second pass on newline-joined safe lines drops exactly the lines
matching the notice pattern. -/
theorem subNotice_joinNL (ls : List (List Char))
    (h : ∀ l ∈ ls, '\n' ∉ l ∧ noMidNotice l) :
    subNotice (joinNL ls) =
      joinNL (ls.filter (fun l => !(ciStartsWith noticePat (l ++ ['\n'])))) := by
  induction ls with
  | nil => rfl
  | cons l ls ih =>
    obtain ⟨hnl, hmid⟩ := h l (List.mem_cons_self l ls)
    have hrest := fun x hx => h x (List.mem_cons_of_mem l hx)
    rw [joinNL, List.filter_cons]
    rcases hd : ciStartsWith noticePat (l ++ ['\n']) with _ | _
    · have hall : ∀ k, k < l.length + 1 →
          ciStartsWith noticePat (l.drop k ++ ['\n']) = false := by
        intro k hk
        by_cases hk0 : k = 0
        · subst hk0
          simpa using hd
        · by_cases hklt : k < l.length
          · exact hmid k hklt (Nat.pos_of_ne_zero hk0)
          · have hkeq : k = l.length := by omega
            subst hkeq
            rw [List.drop_length]
            exact noticePat_nl
      rw [subNotice_copy (joinNL ls) hnl hall, ih hrest]
      simp only [hd, Bool.not_false, if_pos]
      rfl
    · rw [subNotice_remove (joinNL ls) hnl hd, ih hrest]
      simp [hd]

/-- Splitting a newline-joined list of newline-free lines recovers the
lines, plus the final empty segment after the last newline. -/
theorem linesOf_line {l : List Char} (t : List Char) (hnl : '\n' ∉ l) :
    linesOf (l ++ '\n' :: t) = l :: linesOf t := by
  induction l with
  | nil => simp [linesOf]
  | cons c cs ih =>
    have hc : c ≠ '\n' := fun hc => hnl (hc ▸ List.mem_cons_self c cs)
    have ih' := ih (fun hm => hnl (List.mem_cons_of_mem _ hm))
    simp only [List.cons_append, linesOf, if_neg hc, List.append_eq]
    rw [ih']

theorem linesOf_joinNL (ls : List (List Char)) (h : ∀ l ∈ ls, '\n' ∉ l) :
    linesOf (joinNL ls) = ls ++ [[]] := by
  induction ls with
  | nil => rfl
  | cons l ls ih =>
    rw [joinNL, linesOf_line _ (h l (List.mem_cons_self l ls)),
      ih (fun x hx => h x (List.mem_cons_of_mem l hx))]
    rfl

theorem joinLines_append_nil (xs : List (List Char)) :
    joinLines (xs ++ [[]]) = joinNL xs := by
  induction xs with
  | nil => rfl
  | cons x xs ih =>
    cases xs with
    | nil => rfl
    | cons y ys =>
      rw [show ((x :: y :: ys) ++ [[]]) = x :: ((y :: ys) ++ [[]]) from rfl]
      rw [show ((y :: ys) ++ [[]]) = y :: (ys ++ [[]]) from rfl]
      rw [joinLines, show (y :: (ys ++ [[]])) = ((y :: ys) ++ [[]]) from rfl, ih]
      rfl

theorem hasSub_nil {pat : List Char} (h : pat ≠ []) : hasSub pat [] = false := by
  cases pat with
  | nil => exact absurd rfl h
  | cons a l => simp [hasSub, List.isEmpty]

/-- A whole-line substitution pass on newline-joined newline-free lines
acts line by line. -/
theorem subAllLine_joinNL (pat : List Char) (hpat : pat ≠ []) (ls : List (List Char))
    (h : ∀ l ∈ ls, '\n' ∉ l) :
    subAllLine pat (joinNL ls) =
      joinNL (ls.map (fun l => if hasSub pat l then passwordMarker else l)) := by
  unfold subAllLine
  rw [linesOf_joinNL ls h, List.map_append, List.map_cons, List.map_nil,
    hasSub_nil hpat]
  simp only [if_neg Bool.false_ne_true]
  rw [joinLines_append_nil]

/-- The keep predicate induced by the two removal rules, in source order. -/
def keepL (l : List Char) : Bool :=
  !(ciStartsWith infoPat l) && !(ciStartsWith noticePat (l ++ ['\n']))

/-- The per-line effect of the two redaction rules, in source order. -/
def redactL (l : List Char) : List Char :=
  if hasSub defaultDbPat l then passwordMarker
  else if hasSub passwordPat l then passwordMarker
  else l

/-- Whether a line is touched by any of the four sanitization rules. -/
def matchesAnyRule (l : List Char) : Bool :=
  ciStartsWith infoPat l || ciStartsWith noticePat (l ++ ['\n']) ||
    hasSub defaultDbPat l || hasSub passwordPat l

theorem filter_keepL (ls : List (List Char)) :
    ((ls.filter (fun l => !(ciStartsWith infoPat l))).filter
      (fun l => !(ciStartsWith noticePat (l ++ ['\n'])))) = ls.filter keepL := by
  induction ls with
  | nil => rfl
  | cons l ls ih =>
    rcases Bool.eq_false_or_eq_true (ciStartsWith infoPat l) with h1 | h1 <;>
      rcases Bool.eq_false_or_eq_true (ciStartsWith noticePat (l ++ ['\n'])) with h2 | h2 <;>
      simp [List.filter_cons, keepL, h1, h2, ih]

theorem hasSub_marker : hasSub passwordPat passwordMarker = false := by decide

theorem map_redactL (ms : List (List Char)) :
    ((ms.map (fun l => if hasSub defaultDbPat l then passwordMarker else l)).map
      (fun l => if hasSub passwordPat l then passwordMarker else l)) = ms.map redactL := by
  rw [List.map_map]
  apply List.map_congr_left
  intro l _
  simp only [Function.comp_apply, redactL]
  rcases h1 : hasSub defaultDbPat l with _ | _
  · simp
  · simp [hasSub_marker]

theorem marker_no_nl : '\n' ∉ passwordMarker := by decide

/-- Master simulation: on newline-joined safe lines the four-pass
sanitization drops the lines hit by the removal rules and redacts, in
place, the lines hit by the redaction rules. -/
theorem sanitize_joinNL (ls : List (List Char)) (h : ∀ l ∈ ls, LineSafe l) :
    puppetSanitize (joinNL ls) = joinNL ((ls.filter keepL).map redactL) := by
  unfold puppetSanitize
  rw [subInfo_joinNL ls (fun l hl => ⟨(h l hl).1, (h l hl).2.1⟩)]
  rw [subNotice_joinNL _ (fun l hl =>
    ⟨(h l (List.mem_of_mem_filter hl)).1, (h l (List.mem_of_mem_filter hl)).2.2⟩)]
  rw [filter_keepL]
  rw [subAllLine_joinNL defaultDbPat (by decide) _ (fun l hl =>
    (h l (List.mem_of_mem_filter hl)).1)]
  rw [subAllLine_joinNL passwordPat (by decide) _ ?hnl]
  · rw [map_redactL]
  case hnl =>
    intro l hl
    rcases List.mem_map.mp hl with ⟨x, hx, hxl⟩
    by_cases hdb : hasSub defaultDbPat x = true
    · rw [← hxl]
      simp only [hdb, if_pos]
      exact marker_no_nl
    · rw [← hxl]
      simp only [hdb, if_neg Bool.false_ne_true]
      exact (h x (List.mem_of_mem_filter hx)).1

/-- With a newline inside the text and a newline-free pattern, a match at
the start is decided before any appended text is reached. -/
theorem ciStartsWith_append_of_mem_nl {p x : List Char} (y : List Char)
    (hp : ∀ i, i < p.length → (p.getD i ' ').toLower ≠ '\n') (hx : '\n' ∈ x) :
    ciStartsWith p (x ++ y) = ciStartsWith p x := by
  induction p generalizing x with
  | nil => rfl
  | cons p0 ps ih =>
    cases x with
    | nil => simp at hx
    | cons c cs =>
      simp only [List.cons_append, ciStartsWith]
      rcases hb : (p0.toLower == c.toLower) with _ | _
      · simp
      · simp only [Bool.true_and]
        have hc : c ≠ '\n' := by
          intro hc
          subst hc
          exact hp 0 (by simp) (by simpa [nl_toLower] using (beq_iff_eq.mp hb))
        have hcs : '\n' ∈ cs := by
          rcases List.mem_cons.mp hx with h | h
          · exact absurd h.symm hc
          · exact h
        exact ih (fun i hi => by simpa using hp (i + 1) (by simpa using Nat.succ_lt_succ hi)) hcs

theorem dropAfterNL_append_mem {x : List Char} (y : List Char) (hx : '\n' ∈ x) :
    dropAfterNL (x ++ y) = dropAfterNL x ++ y := by
  induction x with
  | nil => simp at hx
  | cons c cs ih =>
    simp only [List.cons_append, dropAfterNL]
    by_cases hc : c = '\n'
    · simp [hc]
    · rw [if_neg hc, if_neg hc]
      refine ih ?_
      rcases List.mem_cons.mp hx with h | h
      · exact absurd h.symm hc
      · exact h

theorem mem_of_getLast_nl : ∀ {l : List Char}, l.getLast? = some '\n' → '\n' ∈ l := by
  intro l
  induction l with
  | nil => intro h; simp at h
  | cons c t ih =>
    intro h
    cases t with
    | nil =>
      simp only [List.getLast?_singleton, Option.some_inj] at h
      simp [h]
    | cons d ts =>
      rw [List.getLast?_cons_cons] at h
      exact List.mem_cons_of_mem c (ih h)

theorem getLast_dropAfterNL : ∀ {l : List Char}, l.getLast? = some '\n' →
    dropAfterNL l = [] ∨ (dropAfterNL l).getLast? = some '\n' := by
  intro l
  induction l with
  | nil => intro h; simp at h
  | cons c t ih =>
    intro h
    simp only [dropAfterNL]
    by_cases hc : c = '\n'
    · rw [if_pos hc]
      cases t with
      | nil => exact Or.inl rfl
      | cons d ts =>
        rw [List.getLast?_cons_cons] at h
        exact Or.inr h
    · rw [if_neg hc]
      cases t with
      | nil =>
        simp only [List.getLast?_singleton, Option.some_inj] at h
        exact absurd h hc
      | cons d ts =>
        rw [List.getLast?_cons_cons] at h
        exact ih h

/-- The first pass distributes over a split at a line boundary.  A match of
the `Info:` rule never crosses a newline, so a prefix that ends at a line
boundary is processed independently of what follows it. -/
theorem subInfo_append_aux : ∀ (n : Nat) (s1 : List Char), s1.length ≤ n →
    s1.getLast? = some '\n' →
    ∀ s2, subInfo (s1 ++ s2) = subInfo s1 ++ subInfo s2 := by
  intro n
  induction n with
  | zero =>
    intro s1 h1 hb s2
    have hnil : s1 = [] := List.eq_nil_of_length_eq_zero (Nat.le_zero.mp h1)
    subst hnil
    simp at hb
  | succ n ih =>
    intro s1 h1 hb s2
    cases s1 with
    | nil => simp at hb
    | cons c t =>
      have hmem : '\n' ∈ c :: t := mem_of_getLast_nl hb
      have hsw : ciStartsWith infoPat ((c :: t) ++ s2) = ciStartsWith infoPat (c :: t) :=
        ciStartsWith_append_of_mem_nl s2 infoIdx hmem
      have hcont : ((c :: t) ++ s2).contains '\n' = true :=
        List.elem_eq_true_of_mem (List.mem_append_left s2 hmem)
      have hcont1 : (c :: t).contains '\n' = true := List.elem_eq_true_of_mem hmem
      rw [show ((c :: t) ++ s2) = c :: (t ++ s2) from rfl, subInfo_cons, subInfo_cons]
      rw [show (c :: (t ++ s2)) = ((c :: t) ++ s2) from rfl, hsw, hcont, hcont1]
      rcases Bool.eq_false_or_eq_true (ciStartsWith infoPat (c :: t)) with hd | hd
      · rw [hd]
        simp only [Bool.true_and, if_pos]
        rw [dropAfterNL_append_mem s2 hmem]
        rcases getLast_dropAfterNL hb with hz | hz
        · rw [hz]
          rfl
        · exact ih (dropAfterNL (c :: t))
            (Nat.le_of_lt_succ (Nat.lt_of_lt_of_le (dropAfterNL_lt c t) h1)) hz s2
      · rw [hd]
        simp only [Bool.false_and, if_neg Bool.false_ne_true]
        cases t with
        | nil => rfl
        | cons d ts =>
          have hbt : (d :: ts).getLast? = some '\n' := by
            rwa [List.getLast?_cons_cons] at hb
          rw [ih (d :: ts) (by simpa using h1) hbt s2]
          rfl

/-- The first pass distributes over any split at a line boundary. -/
theorem subInfo_append (s1 : List Char) (hb : s1 = [] ∨ s1.getLast? = some '\n')
    (s2 : List Char) : subInfo (s1 ++ s2) = subInfo s1 ++ subInfo s2 := by
  rcases hb with hb | hb
  · subst hb
    rfl
  · exact subInfo_append_aux s1.length s1 (Nat.le_refl _) hb s2

/-- Removing one newline-terminated `Info:` line anywhere at a line
boundary commutes with the whole sanitization: the line is deleted by the
first pass, before any redaction rule can see it. -/
theorem sanitize_drop_info (s1 l s2 : List Char)
    (hb : s1 = [] ∨ s1.getLast? = some '\n') (hnl : '\n' ∉ l)
    (hpre : ciStartsWith infoPat l = true) :
    puppetSanitize (s1 ++ (l ++ '\n' :: s2)) = puppetSanitize (s1 ++ s2) := by
  unfold puppetSanitize
  rw [subInfo_append s1 hb, subInfo_append s1 hb, subInfo_remove s2 hnl hpre]

/-- The accumulator fold of `formatdiff` is the concatenation of the
accepted lines, each newline terminated. -/
theorem foldl_keep (rpmdiff : List (List Char)) : ∀ acc,
    rpmdiff.foldl (fun text line => if keepLine line then text ++ line ++ ['\n'] else text) acc =
      acc ++ ((rpmdiff.filter keepLine).map (fun l => l ++ ['\n'])).flatten := by
  induction rpmdiff with
  | nil => intro acc; simp
  | cons l ls ih =>
    intro acc
    simp only [List.foldl_cons, List.filter_cons]
    rcases Bool.eq_false_or_eq_true (keepLine l) with hk | hk <;>
      rw [hk, ih] <;> simp [List.append_assoc]

theorem formatdiff_eq (rpmdiff : List (List Char)) :
    formatdiff rpmdiff = seperator ++ diffheader ++
      ((rpmdiff.filter keepLine).map (fun l => l ++ ['\n'])).flatten ++ seperator := by
  unfold formatdiff
  rw [foldl_keep rpmdiff []]
  simp

/-- The edit script of a sequence against itself keeps every line. -/
theorem diffOpsF_self : ∀ (f : Nat) (S : List (List Char)), S.length + S.length < f →
    diffOpsF f S S = S.map DiffOp.keep := by
  intro f
  induction f with
  | zero => intro S h; omega
  | succ f ih =>
    intro S h
    cases S with
    | nil => rfl
    | cons s S =>
      simp only [diffOpsF, if_pos rfl]
      rw [ih S (by simp only [List.length_cons] at h; omega)]
      rfl

theorem diffOps_self (S : List (List Char)) : diffOps S S = S.map DiffOp.keep := by
  unfold diffOps
  exact diffOpsF_self _ S (by omega)

theorem hunksAux_keeps : ∀ (S : List (List Char)) (i j : Nat),
    hunksAux (S.map DiffOp.keep) i j none = [] := by
  intro S
  induction S with
  | nil => intro i j; rfl
  | cons s S ih => intro i j; exact ih (i + 1) (j + 1)

/-- Identical sequences produce no diff output at all. -/
theorem unifiedDiff_self (S : List (List Char)) : unifiedDiff S S = [] := by
  unfold unifiedDiff
  rw [diffOps_self, hunksAux_keeps]

/-- Every line of a rendered hunk starts with `@`, `-` or `+`. -/
theorem renderHunk_heads {h : Hunk} {l : List Char} (hm : l ∈ renderHunk h) :
    (∃ t, l = '@' :: t) ∨ (∃ s, l = '-' :: s) ∨ (∃ s, l = '+' :: s) := by
  unfold renderHunk at hm
  rcases List.mem_cons.mp hm with rfl | hm
  · exact Or.inl ⟨_, rfl⟩
  · rcases List.mem_append.mp hm with hm | hm
    · rcases List.mem_map.mp hm with ⟨s, _, rfl⟩
      exact Or.inr (Or.inl ⟨s, rfl⟩)
    · rcases List.mem_map.mp hm with ⟨s, _, rfl⟩
      exact Or.inr (Or.inr ⟨s, rfl⟩)

/-- Every line of the raw diff output is a file header, a hunk header, or
a change line prefixed with `-` or `+`. -/
theorem unifiedDiff_heads {a b : List (List Char)} {l : List Char}
    (h : l ∈ unifiedDiff a b) :
    l = "--- ".toList ∨ l = "+++ ".toList ∨ (∃ t, l = '@' :: t) ∨
      (∃ s, l = '-' :: s) ∨ (∃ s, l = '+' :: s) := by
  unfold unifiedDiff at h
  rcases hh : hunksAux (diffOps a b) 0 0 none with _ | ⟨hk, hs⟩
  · rw [hh] at h
    simp at h
  · rw [hh] at h
    rcases List.mem_cons.mp h with rfl | h
    · exact Or.inl rfl
    · rcases List.mem_cons.mp h with rfl | h
      · exact Or.inr (Or.inl rfl)
      · rcases List.mem_flatten.mp h with ⟨r, hr, hl⟩
        rcases List.mem_map.mp hr with ⟨hu, _, rfl⟩
        rcases renderHunk_heads hl with h1 | h2 | h3
        · exact Or.inr (Or.inr (Or.inl h1))
        · exact Or.inr (Or.inr (Or.inr (Or.inl h2)))
        · exact Or.inr (Or.inr (Or.inr (Or.inr h3)))

theorem keepLine_at : ∀ (c1 c2 : Char) (r : List Char),
    keepLine (c1 :: c2 :: r) = ((c1 == '-' || c1 == '|' || c1 == '+') && isAsciiLetter c2) := by
  intro c1 c2 r
  rfl

/-- An accepted line of the actual diff output starts with `-` or `+`
followed by an ASCII letter: the other head shapes are rejected by the
filter. -/
theorem body_shape {a b : List (List Char)} {l : List Char}
    (hm : l ∈ unifiedDiff a b) (hk : keepLine l = true) :
    ∃ c r, (l = '-' :: c :: r ∨ l = '+' :: c :: r) ∧ isAsciiLetter c = true := by
  rcases unifiedDiff_heads hm with rfl | rfl | ⟨t, rfl⟩ | ⟨s, rfl⟩ | ⟨s, rfl⟩
  · exact absurd hk (by decide)
  · exact absurd hk (by decide)
  · cases t with
    | nil => exact absurd hk (by decide)
    | cons c r =>
      rw [keepLine_at] at hk
      have hfirst : ('@' == '-' || '@' == '|' || '@' == '+') = false := by decide
      rw [hfirst, Bool.false_and] at hk
      exact absurd hk (by simp)
  · cases s with
    | nil => exact absurd hk (by decide)
    | cons c r =>
      rw [keepLine_at] at hk
      simp only [Bool.and_eq_true] at hk
      exact ⟨c, r, Or.inl rfl, hk.2⟩
  · cases s with
    | nil => exact absurd hk (by decide)
    | cons c r =>
      rw [keepLine_at] at hk
      simp only [Bool.and_eq_true] at hk
      exact ⟨c, r, Or.inr rfl, hk.2⟩

/-- C2: for every pair of snapshots, every line in the body of the report
produced by the diff formatting has a leading `+` or `-` as its first
character immediately followed by an alphabetic character as its second
character; in particular no hunk-range header (which starts with `@`) and
no file-header line (whose second character is not a letter) appears in
the body. -/
theorem claim_c2 (before after : List (List Char)) (l : List Char)
    (hm : l ∈ (unifiedDiff before after).filter keepLine) :
    ∃ c r, (l = '-' :: c :: r ∨ l = '+' :: c :: r) ∧ isAsciiLetter c = true := by
  rcases List.mem_filter.mp hm with ⟨h1, h2⟩
  exact body_shape h1 h2

/-- Witness for C2 at a concrete diff. -/
theorem claim_c2_witness :
    ∃ c r, (("-b-2-2".toList) = '-' :: c :: r ∨ ("-b-2-2".toList) = '+' :: c :: r) ∧
      isAsciiLetter c = true :=
  claim_c2 ["a-1-1".toList, "b-2-2".toList] ["a-1-1".toList, "c-3-3".toList]
    ("-b-2-2".toList) (by decide)

/-- C5: for every pair of snapshots the report equals
separator + header + body + separator, where the separator is a fixed
80-character rule line followed by a newline, emitted both before and
after the body; the formatting is a total function, so it never fails. -/
theorem claim_c5 (before after : List (List Char)) :
    formatRpm before after = seperator ++ diffheader ++ diffBody before after ++ seperator ∧
      seperator = List.replicate 80 '=' ++ ['\n'] ∧
      diffheader = "This is the RPM delta\n".toList := by
  refine ⟨?_, by decide, rfl⟩
  unfold formatRpm diffBody
  exact formatdiff_eq _

/-- C6: on the snapshots `["a-1-1","b-2-2"]` and `["a-1-1","c-3-3"]` the
report body consists of exactly the two lines `-b-2-2` and `+c-3-3`, in
that order (the removal before the addition). -/
theorem claim_c6 :
    (unifiedDiff ["a-1-1".toList, "b-2-2".toList] ["a-1-1".toList, "c-3-3".toList]).filter
        keepLine = ["-b-2-2".toList, "+c-3-3".toList] ∧
      diffBody ["a-1-1".toList, "b-2-2".toList] ["a-1-1".toList, "c-3-3".toList] =
        "-b-2-2\n+c-3-3\n".toList :=
  ⟨by decide, by decide⟩

/-- C7: for every sequence of package identifiers, diffing the sequence
against itself produces an empty body: the report consists only of the
two separators and the header line, a valid non-error result. -/
theorem claim_c7 (S : List (List Char)) :
    diffBody S S = [] ∧ formatRpm S S = seperator ++ diffheader ++ seperator := by
  have hu := unifiedDiff_self S
  constructor
  · simp [diffBody, hu]
  · unfold formatRpm
    rw [hu, formatdiff_eq]
    simp

/-- C8: the capture returns one identifier per database entry, each built
as name-"-"-version-"-"-release, in exactly the enumeration order of the
database, with no re-sorting: the append loop is the map of the identifier
constructor. -/
theorem claim_c8 (mi : List RpmHeader) : rpmCapture mi = mi.map headerIdent := by
  suffices h : ∀ acc, mi.foldl (fun rpmlist h => rpmlist ++ [headerIdent h]) acc =
      acc ++ mi.map headerIdent by
    simpa using h []
  induction mi with
  | nil => intro acc; simp
  | cons x xs ih =>
    intro acc
    simp [ih, List.append_assoc]

/-- C10: the body filter accepts any line whose first character is `-`,
`+` or `|` and whose second character is an ASCII letter; in particular a
line starting with `|` followed by a letter is kept in the report body, so
the filter's character class does include the pipe character. -/
theorem claim_c10 :
    (∀ c r, keepLine ('|' :: c :: r) = isAsciiLetter c) ∧
      keepLine ('|' :: 'a' :: []) = true ∧
      formatdiff [['|', 'a']] = seperator ++ diffheader ++ ('|' :: 'a' :: '\n' :: []) ++ seperator := by
  refine ⟨?_, by decide, by decide⟩
  intro c r
  rw [keepLine_at]
  have hfirst : ('|' == '-' || '|' == '|' || '|' == '+') = true := by decide
  rw [hfirst, Bool.true_and]

/-- C1 counterexample: the `password` redaction pattern has no `(?i)` flag,
so a line containing `PASSWORD` (uppercase) is not redacted, although it
contains the substring `password` case-insensitively. -/
theorem claim_c1_counterexample :
    puppetSanitize ("PASSWORD\n".toList) = "PASSWORD\n".toList ∧
      hasSub passwordPat (List.map Char.toLower ("PASSWORD".toList)) = true ∧
      ("PASSWORD".toList) ≠ passwordMarker := by
  refine ⟨by decide, by decide, by decide⟩

/-- C1 (amended): the `password` rule is case sensitive.  For inputs given
as newline-terminated lines in which the removal patterns occur only at
line starts: every kept line containing the lowercase substring `password`
is replaced in its entirety by the fixed marker, and every line matching
no sanitization rule is kept, unaltered, at its relative position. -/
theorem claim_c1 (ls : List (List Char)) (h : ∀ l ∈ ls, LineSafe l) :
    puppetSanitize (joinNL ls) = joinNL ((ls.filter keepL).map redactL) ∧
      (∀ l, hasSub passwordPat l = true → redactL l = passwordMarker) ∧
      (∀ l, matchesAnyRule l = false → keepL l = true ∧ redactL l = l) := by
  refine ⟨sanitize_joinNL ls h, ?_, ?_⟩
  · intro l hl
    unfold redactL
    by_cases hdb : hasSub defaultDbPat l = true
    · rw [if_pos hdb]
    · rw [if_neg hdb, if_pos hl]
  · intro l hl
    unfold matchesAnyRule at hl
    simp only [Bool.or_eq_false_iff] at hl
    obtain ⟨⟨⟨h1, h2⟩, h3⟩, h4⟩ := hl
    constructor
    · unfold keepL
      rw [h1, h2]
      rfl
    · unfold redactL
      rw [if_neg (by simp [h3]), if_neg (by simp [h4])]

/-- Witness for C1 on a concrete two-line input with one password line. -/
theorem claim_c1_witness :
    puppetSanitize (joinNL [("user password here".toList), ("keep".toList)]) =
      joinNL ((List.filter keepL
        [("user password here".toList), ("keep".toList)]).map redactL) :=
  (claim_c1 [("user password here".toList), ("keep".toList)] (by decide)).1

/-- C3 counterexample: a mid-line `Info:` occurrence makes the first pass
delete from the occurrence through the end of the line, merging the
remainder of that line with the following line: the untouched line `c` of
the input no longer exists as a line of the output. -/
theorem claim_c3_counterexample :
    puppetSanitize ("aInfo: b\nc\n".toList) = "ac\n".toList ∧
      ("c".toList) ∈ linesOf ("aInfo: b\nc\n".toList) ∧
      matchesAnyRule ("c".toList) = false ∧
      ("c".toList) ∉ linesOf (puppetSanitize ("aInfo: b\nc\n".toList)) := by
  refine ⟨by decide, by decide, by decide, by decide⟩

/-- C3 (amended): on inputs given as newline-terminated lines in which the
removal patterns occur only at line starts, sanitization never reorders
lines and only removes or replaces entire lines: the output's line
decomposition is the kept lines, in order, each either untouched or
replaced in full, and the kept lines form a subsequence of the input
lines. -/
theorem claim_c3 (ls : List (List Char)) (h : ∀ l ∈ ls, LineSafe l) :
    linesOf (puppetSanitize (joinNL ls)) = ((ls.filter keepL).map redactL) ++ [[]] ∧
      List.Sublist (ls.filter keepL) ls := by
  constructor
  · rw [sanitize_joinNL ls h]
    apply linesOf_joinNL
    intro l hl
    rcases List.mem_map.mp hl with ⟨x, hx, rfl⟩
    unfold redactL
    by_cases h1 : hasSub defaultDbPat x = true
    · rw [if_pos h1]
      exact marker_no_nl
    · rw [if_neg h1]
      by_cases h2 : hasSub passwordPat x = true
      · rw [if_pos h2]
        exact marker_no_nl
      · rw [if_neg h2]
        exact (h x (List.mem_of_mem_filter hx)).1
  · exact List.filter_sublist ls

/-- Witness for C3 on a concrete input with one removed line. -/
theorem claim_c3_witness :
    linesOf (puppetSanitize (joinNL [("x".toList), ("Info: y".toList)])) =
        ((List.filter keepL [("x".toList), ("Info: y".toList)]).map redactL) ++ [[]] ∧
      List.Sublist (List.filter keepL [("x".toList), ("Info: y".toList)])
        [("x".toList), ("Info: y".toList)] :=
  claim_c3 [("x".toList), ("Info: y".toList)] (by decide)

/-- C4 counterexample: an `Info:` line that is not newline terminated is
not removed (the pattern requires a final newline), so the output still
contains a line starting with `Info:`. -/
theorem claim_c4_counterexample :
    puppetSanitize ("Info: x".toList) = "Info: x".toList ∧
      ciStartsWith infoPat ("Info: x".toList) = true := by
  refine ⟨by decide, by decide⟩

/-- C4 (amended): sanitize removes every newline-terminated line beginning
with `Info:` (case-insensitively) together with its trailing newline,
wherever the line starts at a line boundary; an unterminated final
`Info:` line is not removed, so the output can still contain a line
starting with `Info:`. -/
theorem claim_c4 (s1 l s2 : List Char) (hb : s1 = [] ∨ s1.getLast? = some '\n')
    (hnl : '\n' ∉ l) (hpre : ciStartsWith infoPat l = true) :
    puppetSanitize (s1 ++ (l ++ '\n' :: s2)) = puppetSanitize (s1 ++ s2) :=
  sanitize_drop_info s1 l s2 hb hnl hpre

/-- Witness for C4: an `Info:` line in the middle of the input is removed
entirely. -/
theorem claim_c4_witness :
    puppetSanitize (("ok\n".toList) ++ (("Info: z".toList) ++ '\n' :: ("end\n".toList))) =
      puppetSanitize (("ok\n".toList) ++ ("end\n".toList)) :=
  claim_c4 ("ok\n".toList) ("Info: z".toList) ("end\n".toList) (by decide) (by decide)
    (by decide)

/-- C9: a newline-terminated input line beginning with `Info:` is removed
even when it also contains the substring `password`: the removal passes
run before the redaction passes, so sanitizing the input equals
sanitizing the input without that line, and no redaction marker is ever
emitted for it. -/
theorem claim_c9 (s1 l s2 : List Char) (hb : s1 = [] ∨ s1.getLast? = some '\n')
    (hnl : '\n' ∉ l) (hpre : ciStartsWith infoPat l = true)
    (hpw : hasSub passwordPat l = true) :
    puppetSanitize (s1 ++ (l ++ '\n' :: s2)) = puppetSanitize (s1 ++ s2) :=
  sanitize_drop_info s1 l s2 hb hnl hpre

/-- Witness for C9: the line `Info: password` is deleted, not redacted: no
marker appears in the output. -/
theorem claim_c9_witness :
    puppetSanitize (([] : List Char) ++ (("Info: password".toList) ++ '\n' :: ("ok\n".toList))) =
        puppetSanitize (([] : List Char) ++ ("ok\n".toList)) ∧
      puppetSanitize ("Info: password\nok\n".toList) = "ok\n".toList :=
  ⟨claim_c9 [] ("Info: password".toList) ("ok\n".toList) (Or.inl rfl) (by decide) (by decide)
      (by decide),
    by decide⟩

end Puppet
